import Mathlib

/-!
Verification development for the llm-tools-readonly-fs repository.

The repository wraps a sandboxed read-only filesystem toolbox (glob / grep /
view) for an LLM agent.  The wrapper class `ReadonlyFsTools` and the stub
module are embedded from the sources under src/; the core components
(Sandbox, OutputBudget, Globber, Grepper, Viewer) live in the external
`readonly_fs_tools` package that the wrapper imports, so they are modelled
from the specification, as their doc comments state.

Paths are modelled as lists of segments.  The filesystem is a finite list of
files, each a canonical absolute path with a list of lines (each line is
stored without its terminator; serialization appends a newline).  Symbolic
links are not modelled: the filesystem is a plain tree.
-/

set_option maxRecDepth 4000

/-- Canonicalization loop over path segments: the accumulator holds the kept
segments in reverse; `.` and empty segments vanish, `..` pops the most recent
kept segment (a no-op at the filesystem root, as in POSIX), ordinary segments
are kept. -/
def canonLoop : List String → List String → List String
  | acc, [] => acc.reverse
  | acc, s :: rest =>
    if s = "." ∨ s = "" then canonLoop acc rest
    else if s = ".." then canonLoop acc.tail rest
    else canonLoop (s :: acc) rest

/-- Modelled from the spec: canonicalization of an absolute path (its segments
below the filesystem root), eliminating `.` and `..` segments.  Symlink
resolution is not modelled (the filesystem model has no symlinks). -/
def canonAbs (p : List String) : List String := canonLoop [] p

/-- A plain segment is an ordinary file or directory name, none of the special
segments `.`, `..` or the empty segment. -/
def plainSeg (s : String) : Bool := decide (s ≠ "." ∧ s ≠ "" ∧ s ≠ "..")

def plainSegs (p : List String) : Bool := p.all plainSeg

/-- Error taxonomy of the spec (section 7). -/
inductive FsError where
  | PathEscape
  | BlockedPath
  | HiddenPathDenied
  | NotFound
  | NotAFile
  | InvalidPattern
  | IoError
deriving DecidableEq

/-- Modelled from the spec: the Sandbox configuration — canonical absolute
root, blocked canonical absolute paths, hidden-file policy. -/
structure Sandbox where
  root : List String
  blocked : List (List String)
  allow_hidden : Bool
deriving DecidableEq

/-- A hidden entry starts with a dot. -/
def hiddenName (s : String) : Bool :=
  match s.toList with
  | '.' :: _ => true
  | _ => false

/-- Modelled from the spec: `Sandbox.resolve` joins the relative path onto the
root, canonicalizes, and rejects with `PathEscape` when the canonical path is
not the root or a descendant, with `BlockedPath` when it equals or descends
from a blocked entry, and with `HiddenPathDenied` when a component below the
root starts with a dot while hidden entries are not allowed.  On success it
returns the canonical absolute path together with the sandbox-relative path. -/
def Sandbox.resolve (sb : Sandbox) (p : List String) :
    Except FsError (List String × List String) :=
  let canon := canonAbs (sb.root ++ p)
  if sb.root.isPrefixOf canon then
    let rel := canon.drop sb.root.length
    if sb.blocked.any (fun b => b.isPrefixOf canon) then .error .BlockedPath
    else if !sb.allow_hidden && rel.any hiddenName then
      .error .HiddenPathDenied
    else .ok (canon, rel)
  else .error .PathEscape

/-- A relative path escapes when its resolution against the root leaves the
root: the canonical form of root-plus-path does not extend the root. -/
def escapes (sb : Sandbox) (p : List String) : Bool :=
  !(sb.root.isPrefixOf (canonAbs (sb.root ++ p)))

/-- A file of the modelled filesystem: a canonical absolute path and the
file's lines (stored without terminators). -/
structure File where
  path : List String
  lines : List String
deriving DecidableEq

abbrev FS := List File

deriving instance DecidableEq for Except

theorem isPrefixOf_append_self (a t : List String) :
    a.isPrefixOf (a ++ t) = true := by
  induction a with
  | nil => simp [List.isPrefixOf]
  | cons x xs ih => simp [List.isPrefixOf, ih]

theorem isPrefixOf_append_drop (a : List String) :
    ∀ b : List String, a.isPrefixOf b = true → a ++ b.drop a.length = b := by
  induction a with
  | nil => intro b _; simp
  | cons x xs ih =>
    intro b h
    cases b with
    | nil => simp [List.isPrefixOf] at h
    | cons y ys =>
      simp only [List.isPrefixOf, Bool.and_eq_true, beq_iff_eq] at h
      obtain ⟨hx, hys⟩ := h
      simp [hx, ih ys hys]

theorem canonLoop_plain (xs : List String) :
    ∀ acc : List String, plainSegs xs = true →
      canonLoop acc xs = acc.reverse ++ xs := by
  induction xs with
  | nil => intro acc _; simp [canonLoop]
  | cons s rest ih =>
    intro acc h
    simp [plainSegs, plainSeg] at h
    obtain ⟨⟨h1, h2, h3⟩, hrest⟩ := h
    have hrest' : plainSegs rest = true := by
      simp [plainSegs, plainSeg]
      intro a ha
      exact hrest a ha
    simp only [canonLoop]
    rw [if_neg (by simp [h1, h2]), if_neg (by simp [h3]), ih (s :: acc) hrest']
    simp

theorem canonLoop_output_plain (xs : List String) :
    ∀ acc : List String, plainSegs acc = true →
      plainSegs (canonLoop acc xs) = true := by
  induction xs with
  | nil =>
    intro acc h
    simp only [canonLoop, plainSegs] at *
    simp only [List.all_eq_true] at *
    intro a ha
    exact h a (List.mem_reverse.mp ha)
  | cons s rest ih =>
    intro acc h
    simp only [canonLoop]
    split
    · exact ih acc h
    · split
      · apply ih
        cases acc with
        | nil => simp [plainSegs]
        | cons z zs =>
          simp only [plainSegs, List.all_eq_true] at *
          intro a ha
          exact h a (List.mem_cons_of_mem z ha)
      · apply ih
        simp only [plainSegs, List.all_eq_true] at *
        intro a ha
        cases List.mem_cons.mp ha with
        | inl hz =>
          subst hz
          simp only [plainSeg, decide_eq_true_eq]
          refine ⟨?_, ?_, ?_⟩ <;> intro hc <;> simp [hc] at *
        | inr hz => exact h a hz

theorem canonAbs_plain (p : List String) : plainSegs (canonAbs p) = true :=
  canonLoop_output_plain p [] (by simp [plainSegs])

theorem canonAbs_of_plain (p : List String) (h : plainSegs p = true) :
    canonAbs p = p := by
  simpa using canonLoop_plain p [] h

/-- An item of a bracket class: a single character or an inclusive range. -/
inductive ClassItem where
  | single (c : Char)
  | range (lo hi : Char)
deriving DecidableEq

def charInItems (its : List ClassItem) (c : Char) : Bool :=
  its.any fun it =>
    match it with
    | .single x => decide (x = c)
    | .range lo hi => decide (lo ≤ c ∧ c ≤ hi)

/-- Parses the items of a bracket class up to the closing bracket; fails when
the class is unterminated.  A trailing dash right before the closing bracket
is a literal dash. -/
def classItemsLoop : List Char → Option (List ClassItem × List Char)
  | [] => none
  | ']' :: rest => some ([], rest)
  | a :: '-' :: b :: rest =>
    if b = ']' then some ([.single a, .single '-'], rest)
    else
      match classItemsLoop rest with
      | none => none
      | some (its, r) => some (.range a b :: its, r)
  | a :: rest =>
    match classItemsLoop rest with
    | none => none
    | some (its, r) => some (.single a :: its, r)

/-- A token of one glob path-segment pattern: a literal character, `?`,
`*`, or a bracket class. -/
inductive SegTok where
  | lit (c : Char)
  | anyChar
  | anyRun
  | cls (neg : Bool) (items : List ClassItem)
deriving DecidableEq

/-- Glob bracket classes use `!` for negation, as fnmatch does. -/
def globClass (cs : List Char) : Option (Bool × List ClassItem × List Char) :=
  match cs with
  | '!' :: rest =>
    match classItemsLoop rest with
    | none => none
    | some (its, r) => some (true, its, r)
  | _ =>
    match classItemsLoop cs with
    | none => none
    | some (its, r) => some (false, its, r)

/-- Tokenizes one glob segment pattern.  The fuel only drives termination and
is ample (one unit per consumed character); an unterminated bracket is a
literal opening bracket, as fnmatch treats it. -/
def segTokensGo : Nat → List Char → List SegTok
  | 0, _ => []
  | _, [] => []
  | n + 1, '*' :: ps => .anyRun :: segTokensGo n ps
  | n + 1, '?' :: ps => .anyChar :: segTokensGo n ps
  | n + 1, '[' :: ps =>
    match globClass ps with
    | some (neg, its, ps') => .cls neg its :: segTokensGo n ps'
    | none => .lit '[' :: segTokensGo n ps
  | n + 1, c :: ps => .lit c :: segTokensGo n ps

def segTokens (p : List Char) : List SegTok := segTokensGo (p.length + 1) p

def tokMatchesChar (t : SegTok) (c : Char) : Bool :=
  match t with
  | .lit a => decide (a = c)
  | .anyChar => true
  | .anyRun => false
  | .cls neg its => if neg then !charInItems its c else charInItems its c

/-- Matches a tokenized segment pattern against the characters of one path
segment; `*` matches any run of characters within the segment.  The fuel
only drives termination: every step shrinks the pattern or the input, so
one unit per token and character is ample. -/
def matchToksGo : Nat → List SegTok → List Char → Bool
  | 0, _, _ => false
  | n + 1, ts, cs =>
    match ts, cs with
    | [], [] => true
    | [], _ :: _ => false
    | .anyRun :: ts', [] => matchToksGo n ts' []
    | .anyRun :: ts', c :: cs' =>
      matchToksGo n ts' (c :: cs') || matchToksGo n (.anyRun :: ts') cs'
    | t :: ts', c :: cs' => tokMatchesChar t c && matchToksGo n ts' cs'
    | _ :: _, [] => false

def matchToks (ts : List SegTok) (cs : List Char) : Bool :=
  matchToksGo (ts.length + cs.length + 1) ts cs

/-- Matches a glob pattern, split into segment patterns, against a relative
path, split into segments; `**` matches zero or more whole segments.  The
fuel only drives termination and is ample, as for matchToksGo. -/
def matchSegsGo : Nat → List String → List String → Bool
  | 0, _, _ => false
  | n + 1, ps, segs =>
    match ps, segs with
    | [], [] => true
    | [], _ :: _ => false
    | p :: ps', segs =>
      if p = "**" then
        matchSegsGo n ps' segs ||
          (match segs with
           | [] => false
           | _ :: rest => matchSegsGo n (p :: ps') rest)
      else
        match segs with
        | [] => false
        | s :: rest =>
          matchToks (segTokens p.toList) s.toList && matchSegsGo n ps' rest

def matchSegs (ps : List String) (segs : List String) : Bool :=
  matchSegsGo (ps.length + segs.length + 1) ps segs

/-- The serialized text of a relative path: its segments joined by slashes. -/
def pathStr : List String → String
  | [] => ""
  | [s] => s
  | s :: rest => s ++ "/" ++ pathStr rest

/-- Lexicographic comparison of character lists, used for the deterministic
within-pattern ordering of glob results. -/
def lexLe (a b : List Char) : Bool :=
  match a, b with
  | [], _ => true
  | _ :: _, [] => false
  | x :: xs, y :: ys => if x < y then true else if y < x then false else lexLe xs ys

def relLe (a b : List String) : Bool := lexLe (pathStr a).toList (pathStr b).toList

def insertSorted (x : List String) : List (List String) → List (List String)
  | [] => [x]
  | y :: ys => if relLe x y then x :: y :: ys else y :: insertSorted x ys

def sortPaths : List (List String) → List (List String)
  | [] => []
  | x :: xs => insertSorted x (sortPaths xs)

/-- Modelled from the spec: the OutputBudget ledger — a fixed limit and the
output committed so far. -/
structure OutputBudget where
  limit : Nat
  consumed : Nat
deriving DecidableEq

/-- Modelled from the spec: an item of the given serialized size is committed
only when doing so keeps the consumed total within the limit; otherwise the
charge is refused (and the producer stops, marking its result truncated). -/
def OutputBudget.tryCharge (b : OutputBudget) (n : Nat) : Option OutputBudget :=
  if b.consumed + n ≤ b.limit then some ⟨b.limit, b.consumed + n⟩ else none

structure GlobOutput where
  paths : List (List String)
  truncated : Bool
deriving DecidableEq

def relPathSize (r : List String) : Nat := (pathStr r).length

/-- The relative paths of the filesystem entries below the sandbox root. -/
def underRoot (sb : Sandbox) (fs : FS) : List (List String) :=
  (fs.map File.path).filterMap
    (fun q => if sb.root.isPrefixOf q then some (q.drop sb.root.length) else none)

/-- Splits a pattern's characters at slashes into segment patterns. -/
def splitSlash : List Char → List Char → List String
  | [], acc => [String.mk acc.reverse]
  | '/' :: rest, acc => String.mk acc.reverse :: splitSlash rest []
  | c :: rest, acc => splitSlash rest (c :: acc)

def patSegs (pat : String) : List String := splitSlash pat.toList []

/-- The candidates of one glob pattern: entries below the root whose relative
path matches the pattern, sorted lexicographically. -/
def patMatches (sb : Sandbox) (fs : FS) (pat : String) : List (List String) :=
  sortPaths ((underRoot sb fs).filter (fun r => matchSegs (patSegs pat) r))

/-- All candidates, in pattern order, sorted within each pattern. -/
def globCandidates (sb : Sandbox) (fs : FS) (pats : List String) :
    List (List String) :=
  (pats.map (patMatches sb fs)).flatten

/-- Modelled from the spec: the Globber loop.  Each candidate goes through
Sandbox.resolve (rejections silently exclude it), duplicates (by canonical
absolute path) are dropped, and each accepted path's serialized length is
charged to the budget; a refused charge stops the scan with `truncated`. -/
def globGo (sb : Sandbox) :
    OutputBudget → List (List String) → List (List String) →
      List (List String) × Bool
  | _, _, [] => ([], false)
  | b, seen, q :: rest =>
    match sb.resolve q with
    | .error _ => globGo sb b seen rest
    | .ok (canon, rel) =>
      if seen.any (fun x => decide (x = canon)) then globGo sb b seen rest
      else
        match b.tryCharge (relPathSize rel) with
        | some b' =>
          let r := globGo sb b' (canon :: seen) rest
          (rel :: r.1, r.2)
        | none => ([], true)

/-- Modelled from the spec: Globber.glob expands the patterns against the
sandbox root and applies the budget discipline. -/
def Globber.glob (sb : Sandbox) (fs : FS) (pats : List String)
    (b : OutputBudget) : GlobOutput :=
  let r := globGo sb b [] (globCandidates sb fs pats)
  ⟨r.1, r.2⟩

/-- The items Globber would emit with an unbounded budget: the resolved,
deduplicated relative paths, in candidate order. -/
def globItems (sb : Sandbox) :
    List (List String) → List (List String) → List (List String)
  | _, [] => []
  | seen, q :: rest =>
    match sb.resolve q with
    | .error _ => globItems sb seen rest
    | .ok (canon, rel) =>
      if seen.any (fun x => decide (x = canon)) then globItems sb seen rest
      else rel :: globItems sb (canon :: seen) rest

def sizeSum {α : Type} (size : α → Nat) (l : List α) : Nat := (l.map size).sum

/-- The budget discipline of section 4.5, as one reusable fold: commit items
in order while each fits, stop (marking truncation) at the first that does
not. -/
def budgetFit {α : Type} (limit : Nat) (size : α → Nat) :
    Nat → List α → List α × Bool
  | _, [] => ([], false)
  | c, x :: xs =>
    if c + size x ≤ limit then
      let r := budgetFit limit size (c + size x) xs
      (x :: r.1, r.2)
    else ([], true)

structure FileWindow where
  line_offset : Nat
  line_count : Nat
deriving DecidableEq

structure FileContent where
  path : List String
  contents : String
  window : FileWindow
deriving DecidableEq

structure ViewOutput where
  view : FileContent
  truncated : Bool
deriving DecidableEq

/-- Serialized size of one line: its text plus the line terminator. -/
def lineSize (l : String) : Nat := l.length + 1

def linesJoin : List String → String
  | [] => ""
  | l :: ls => l ++ "\n" ++ linesJoin ls

/-- Modelled from the spec: the Viewer read loop.  Collects up to the
requested number of lines, charging each contiguous append to the budget;
a refused charge stops the read with `truncated`. -/
def viewGo (limit : Nat) : Nat → Nat → List String → String × Nat × Bool
  | _, _, [] => ("", 0, false)
  | _, 0, _ :: _ => ("", 0, false)
  | c, k + 1, l :: rest =>
    if c + lineSize l ≤ limit then
      let r := viewGo limit (c + lineSize l) k rest
      (l ++ "\n" ++ r.1, r.2.1 + 1, r.2.2)
    else ("", 0, true)

/-- A canonical path is a directory when some file lies strictly below it. -/
def isDirOf (fs : FS) (canon : List String) : Bool :=
  fs.any (fun f => decide (canon ≠ f.path) && canon.isPrefixOf f.path)

/-- Modelled from the spec: Viewer.view resolves the path (resolution errors
surface to the caller), requires a regular file (`NotAFile` for a directory,
`NotFound` otherwise), then streams the window's lines under the budget.  An
offset at or beyond the end yields empty contents with a zero-line window,
as success. -/
def Viewer.view (sb : Sandbox) (fs : FS) (p : List String) (w : FileWindow)
    (b : OutputBudget) : Except FsError ViewOutput :=
  match sb.resolve p with
  | .error e => .error e
  | .ok (canon, rel) =>
    match fs.find? (fun f => decide (f.path = canon)) with
    | some f =>
      let r := viewGo b.limit b.consumed w.line_count (f.lines.drop w.line_offset)
      .ok ⟨⟨rel, r.1, ⟨w.line_offset, r.2.1⟩⟩, r.2.2⟩
    | none => if isDirOf fs canon then .error .NotAFile else .error .NotFound

/-- Modelled from the spec: abstract syntax of the line-scoped regular
expressions grep compiles. -/
inductive Regex where
  | eps
  | nomatch
  | chr (c : Char)
  | dot
  | cls (neg : Bool) (items : List ClassItem)
  | alt (a b : Regex)
  | cat (a b : Regex)
  | star (a : Regex)
deriving DecidableEq

def nullable : Regex → Bool
  | .eps => true
  | .nomatch => false
  | .chr _ => false
  | .dot => false
  | .cls _ _ => false
  | .alt a b => nullable a || nullable b
  | .cat a b => nullable a && nullable b
  | .star _ => true

def classMatch (neg : Bool) (its : List ClassItem) (c : Char) : Bool :=
  if neg then !charInItems its c else charInItems its c

/-- Brzozowski derivative of a regular expression by one character. -/
def rderiv (c : Char) : Regex → Regex
  | .eps => .nomatch
  | .nomatch => .nomatch
  | .chr x => if x = c then .eps else .nomatch
  | .dot => .eps
  | .cls n its => if classMatch n its c then .eps else .nomatch
  | .alt a b => .alt (rderiv c a) (rderiv c b)
  | .cat a b =>
    if nullable a then .alt (.cat (rderiv c a) b) (rderiv c b)
    else .cat (rderiv c a) b
  | .star a => .cat (rderiv c a) (.star a)

/-- True when some prefix of the characters is matched by the expression. -/
def matchesPfx : Regex → List Char → Bool
  | r, [] => nullable r
  | r, c :: cs => nullable r || matchesPfx (rderiv c r) cs

/-- True when the expression matches somewhere in the characters. -/
def searchFrom : Regex → List Char → Bool
  | r, [] => nullable r
  | r, c :: cs => matchesPfx r (c :: cs) || searchFrom r cs

/-- Match-anywhere-in-the-line semantics, evaluated on one line's text. -/
def lineMatches (r : Regex) (l : String) : Bool := searchFrom r l.toList

/-- Smart concatenation keeps parsed syntax trees small. -/
def rcat : Regex → Regex → Regex
  | .eps, r => r
  | a, r => .cat a r

/-- Escaped atoms: the common shorthand classes, else the literal character. -/
def escAtom (c : Char) : Regex :=
  if c = 'd' then .cls false [.range '0' '9']
  else if c = 'w' then
    .cls false [.range 'a' 'z', .range 'A' 'Z', .range '0' '9', .single '_']
  else if c = 's' then
    .cls false [.single ' ', .single '\t', .single '\n', .single '\r']
  else .chr c

/-- Regex bracket classes use `^` for negation. -/
def regexClass (cs : List Char) : Option (Bool × List ClassItem × List Char) :=
  match cs with
  | '^' :: rest =>
    match classItemsLoop rest with
    | none => none
    | some (its, r) => some (true, its, r)
  | _ =>
    match classItemsLoop cs with
    | none => none
    | some (its, r) => some (false, its, r)

/-- Postfix repetition operators applied to the preceding atom. -/
def parsePostfixes : Regex → List Char → Regex × List Char
  | r, '*' :: rest => parsePostfixes (.star r) rest
  | r, '+' :: rest => parsePostfixes (.cat r (.star r)) rest
  | r, '?' :: rest => parsePostfixes (.alt r .eps) rest
  | r, cs => (r, cs)

/- Modelled from the spec: recursive-descent reader for the regular
expression text: alternation of concatenations of postfixed atoms, with
groups, bracket classes, dot, and escapes.  The fuel only drives termination
and is ample for every input.  Anchors are not modelled (treated as literal
characters); a malformed pattern, such as an unbalanced parenthesis, yields
none. -/
mutual
def parseAlt : Nat → List Char → Option (Regex × List Char)
  | 0, _ => none
  | n + 1, cs =>
    match parseCat n cs with
    | none => none
    | some (r, rest) => parseAltTail n r rest

def parseAltTail : Nat → Regex → List Char → Option (Regex × List Char)
  | 0, _, _ => none
  | n + 1, acc, cs =>
    match cs with
    | '|' :: rest =>
      match parseCat n rest with
      | none => none
      | some (r, rest') => parseAltTail n (.alt acc r) rest'
    | _ => some (acc, cs)

def parseCat : Nat → List Char → Option (Regex × List Char)
  | 0, _ => none
  | n + 1, cs => parseCatGo n .eps cs

def parseCatGo : Nat → Regex → List Char → Option (Regex × List Char)
  | 0, _, _ => none
  | n + 1, acc, cs =>
    match cs with
    | [] => some (acc, [])
    | '|' :: _ => some (acc, cs)
    | ')' :: _ => some (acc, cs)
    | _ =>
      match parsePost n cs with
      | none => none
      | some (r, rest) => parseCatGo n (rcat acc r) rest

def parsePost : Nat → List Char → Option (Regex × List Char)
  | 0, _ => none
  | n + 1, cs =>
    match parseAtom n cs with
    | none => none
    | some (r, rest) => some (parsePostfixes r rest)

def parseAtom : Nat → List Char → Option (Regex × List Char)
  | 0, _ => none
  | n + 1, cs =>
    match cs with
    | '(' :: rest =>
      match parseAlt n rest with
      | none => none
      | some (r, rest') =>
        match rest' with
        | ')' :: rest'' => some (r, rest'')
        | _ => none
    | '[' :: rest =>
      match regexClass rest with
      | none => none
      | some (neg, its, rest') => some (.cls neg its, rest')
    | '.' :: rest => some (.dot, rest)
    | '\\' :: c :: rest => some (escAtom c, rest)
    | ['\\'] => none
    | c :: rest =>
      if c = '*' ∨ c = '+' ∨ c = '?' ∨ c = '|' ∨ c = ')' then none
      else some (.chr c, rest)
    | [] => none
end

/-- Modelled from the spec: compiling the pattern text; a malformed pattern
yields `none`, a parse that leaves unconsumed input likewise. -/
def parseRegex (s : String) : Option Regex :=
  match parseAlt (10 * (s.length + 1)) s.toList with
  | some (r, []) => some r
  | _ => none

structure GrepOutput where
  matched : List FileContent
  truncated : Bool
deriving DecidableEq

/-- Serialized size of one grep match: its contents plus its path. -/
def grepItemSize (m : FileContent) : Nat :=
  (pathStr m.path).length + m.contents.length

/-- Modelled from the spec: the Grepper per-file scan.  Each matching line
becomes one FileContent (contents keep the terminator, window is that line,
with a one-line count); each match is charged to the budget, and a refused
charge stops the scan with `truncated`.  Returns the matches, the consumed
total, and the truncation flag. -/
def grepLines (rel : List String) (r : Regex) (limit : Nat) :
    Nat → Nat → List String → List FileContent × Nat × Bool
  | c, _, [] => ([], c, false)
  | c, idx, l :: rest =>
    if lineMatches r l then
      if c + grepItemSize ⟨rel, l ++ "\n", ⟨idx, 1⟩⟩ ≤ limit then
        let res := grepLines rel r limit
          (c + grepItemSize ⟨rel, l ++ "\n", ⟨idx, 1⟩⟩) (idx + 1) rest
        (⟨rel, l ++ "\n", ⟨idx, 1⟩⟩ :: res.1, res.2.1, res.2.2)
      else ([], c, true)
    else grepLines rel r limit c (idx + 1) rest

/-- Modelled from the spec: the Grepper file loop, scanning the candidate
files in order; a file that cannot be read (here: vanished from the
filesystem) is skipped, and an exhausted budget stops the remaining scan. -/
def grepFiles (sb : Sandbox) (fs : FS) (r : Regex) (limit : Nat) :
    Nat → List (List String) → List FileContent × Bool
  | _, [] => ([], false)
  | c, rel :: rest =>
    match fs.find? (fun f => decide (f.path = sb.root ++ rel)) with
    | none => grepFiles sb fs r limit c rest
    | some f =>
      let res := grepLines rel r limit c 0 f.lines
      if res.2.2 then (res.1, true)
      else
        let res2 := grepFiles sb fs r limit res.2.1 rest
        (res.1 ++ res2.1, res2.2)

/-- Modelled from the spec: Grepper.grep compiles the pattern (a malformed
pattern fails with `InvalidPattern` before any scanning), obtains the
candidate files from the Globber with its own fresh budget of the same
limit, scans them in order under the text budget, and propagates the
Globber's truncation into the final flag. -/
def Grepper.grep (sb : Sandbox) (fs : FS) (pattern : String)
    (glob_patterns : List String) (b : OutputBudget) :
    Except FsError GrepOutput :=
  match parseRegex pattern with
  | none => .error .InvalidPattern
  | some r =>
    let g := Globber.glob sb fs glob_patterns ⟨b.limit, 0⟩
    let res := grepFiles sb fs r b.limit b.consumed g.paths
    .ok ⟨res.1, res.2 || g.truncated⟩

/-- The match items of one file, with an unbounded budget. -/
def fileItemsGo (r : Regex) (rel : List String) :
    Nat → List String → List FileContent
  | _, [] => []
  | idx, l :: rest =>
    if lineMatches r l then
      ⟨rel, l ++ "\n", ⟨idx, 1⟩⟩ :: fileItemsGo r rel (idx + 1) rest
    else fileItemsGo r rel (idx + 1) rest

/-- The match items grep would emit with an unbounded text budget, over the
given candidate files in order. -/
def grepItems (sb : Sandbox) (fs : FS) (r : Regex)
    (files : List (List String)) : List FileContent :=
  (files.map (fun rel =>
    match fs.find? (fun f => decide (f.path = sb.root ++ rel)) with
    | none => []
    | some f => fileItemsGo r rel 0 f.lines)).flatten

/-- The toolbox of src/src/llm_tools_readonly_fs/llm_tools_readonly_fs.py:
construction builds the Sandbox once and stores the output limit; the per-call
producers hold no state beyond the sandbox, so the toolbox is the sandbox
plus the limit. -/
structure ReadonlyFsTools where
  sandbox : Sandbox
  output_limit : Nat
deriving DecidableEq

/-- Embedding of ReadonlyFsTools.__init__: the Sandbox is built from the
configured directory, blocked files and hidden policy (canonicalized per the
spec's Sandbox data model), and the output limit is stored. -/
def ReadonlyFsTools.ofConfig (sandbox_dir : List String)
    (blocked_files : List (List String)) (allow_hidden : Bool)
    (output_limit : Nat) : ReadonlyFsTools :=
  ⟨⟨canonAbs sandbox_dir, blocked_files.map canonAbs, allow_hidden⟩, output_limit⟩

/-- Embedding of construction with no arguments: the defaults of the
__init__ signature — the current working directory, no blocked files, hidden
entries disallowed, and an output limit of 10000. -/
def ReadonlyFsTools.ofDefaults (cwd : List String) : ReadonlyFsTools :=
  ReadonlyFsTools.ofConfig cwd [] false 10000

/-- Embedding of ReadonlyFsTools.glob: builds one fresh OutputBudget with the
construction-time limit and delegates to the Globber. -/
def ReadonlyFsTools.glob (tb : ReadonlyFsTools) (fs : FS)
    (glob_patterns : List String) : GlobOutput :=
  Globber.glob tb.sandbox fs glob_patterns ⟨tb.output_limit, 0⟩

/-- Embedding of ReadonlyFsTools.grep: builds one fresh OutputBudget with the
construction-time limit and delegates to the Grepper. -/
def ReadonlyFsTools.grep (tb : ReadonlyFsTools) (fs : FS)
    (search_regex : String) (glob_patterns : List String) :
    Except FsError GrepOutput :=
  Grepper.grep tb.sandbox fs search_regex glob_patterns ⟨tb.output_limit, 0⟩

/-- Embedding of ReadonlyFsTools.view: wraps the offset and count in a
FileWindow, builds one fresh OutputBudget with the construction-time limit
and delegates to the Viewer.  The path argument is already split into
segments. -/
def ReadonlyFsTools.view (tb : ReadonlyFsTools) (fs : FS)
    (file_path : List String) (line_offset : Nat) (line_count : Nat) :
    Except FsError ViewOutput :=
  Viewer.view tb.sandbox fs file_path ⟨line_offset, line_count⟩
    ⟨tb.output_limit, 0⟩

/-- One toolbox invocation with its arguments. -/
inductive Call where
  | glob (glob_patterns : List String)
  | grep (search_regex : String) (glob_patterns : List String)
  | view (file_path : List String) (line_offset line_count : Nat)
deriving DecidableEq

inductive CallResult where
  | globR (g : GlobOutput)
  | grepR (g : Except FsError GrepOutput)
  | viewR (v : Except FsError ViewOutput)

/-- One call against the toolbox, threading the toolbox and filesystem state
exactly as the source does: the methods read both and reassign neither. -/
def ReadonlyFsTools.step (tb : ReadonlyFsTools) (fs : FS) :
    Call → CallResult × ReadonlyFsTools × FS
  | .glob pats => (.globR (tb.glob fs pats), tb, fs)
  | .grep rx pats => (.grepR (tb.grep fs rx pats), tb, fs)
  | .view p off cnt => (.viewR (tb.view fs p off cnt), tb, fs)

/-- A sequence of calls against one toolbox instance. -/
def runSeq (tb : ReadonlyFsTools) (fs : FS) :
    List Call → List CallResult × ReadonlyFsTools × FS
  | [] => ([], tb, fs)
  | c :: cs =>
    let s := tb.step fs c
    let r := runSeq s.2.1 s.2.2 cs
    (s.1 :: r.1, r.2)

/-- The filesystem operations a call can perform.  Write, delete and rename
are included so that the frame property is expressible; the toolbox never
emits them. -/
inductive FsEffect where
  | readFile (p : List String)
  | listTree
  | writeFile (p : List String) (lines : List String)
  | deletePath (p : List String)
deriving DecidableEq

def FsEffect.isRead : FsEffect → Bool
  | .readFile _ => true
  | .listTree => true
  | _ => false

def applyEffect (fs : FS) : FsEffect → FS
  | .readFile _ => fs
  | .listTree => fs
  | .writeFile p ls => ⟨p, ls⟩ :: fs.filter (fun f => decide (f.path ≠ p))
  | .deletePath p => fs.filter (fun f => !(p.isPrefixOf f.path))

/-- The filesystem accesses of one call: glob lists the tree; grep lists the
tree and opens the candidate files the inner glob returned (a truncated scan
opens a prefix of them); view opens the resolved file.  Every effect is a
read. -/
def callEffects (tb : ReadonlyFsTools) (fs : FS) : Call → List FsEffect
  | .glob _ => [.listTree]
  | .grep rx pats =>
    match parseRegex rx with
    | none => []
    | some _ =>
      .listTree ::
        ((Globber.glob tb.sandbox fs pats ⟨tb.output_limit, 0⟩).paths.map
          (fun rel => .readFile (tb.sandbox.root ++ rel)))
  | .view p _ _ =>
    match tb.sandbox.resolve p with
    | .ok pr => [.readFile pr.1]
    | .error _ => []

namespace LlmToolsReadonlyFsModule

/-- Embedding of the module-level view function of src/llm_tools_readonly_fs.py:
it formats the fixed greeting around its input; it takes no filesystem and
performs no sandbox validation. -/
def view (input : String) : String := "hello " ++ input

/-- Embedding of register_tools of src/llm_tools_readonly_fs.py: the module
registers exactly the view function. -/
def register_tools : List (String → String) := [view]

end LlmToolsReadonlyFsModule

/-- The budget rule of the spec, stated on the item list: the output is the
maximal prefix of the items that fits the limit, a whole item at a time, and
the flag is set exactly when a candidate item was left out because it did
not fit. -/
def MaxFitPrefixSpec {α : Type} (limit : Nat) (size : α → Nat)
    (items out : List α) (trunc : Bool) : Prop :=
  (trunc = false ∧ out = items ∧ sizeSum size items ≤ limit) ∨
  (trunc = true ∧ ∃ nxt rest, items = out ++ nxt :: rest ∧
    sizeSum size out ≤ limit ∧ limit < sizeSum size out + size nxt)

theorem resolve_ok_parts {sb : Sandbox} {p canon rel : List String}
    (h : sb.resolve p = .ok (canon, rel)) :
    canon = canonAbs (sb.root ++ p) ∧ sb.root.isPrefixOf canon = true ∧
    rel = canon.drop sb.root.length ∧
    sb.blocked.any (fun b => b.isPrefixOf canon) = false := by
  simp only [Sandbox.resolve] at h
  split at h
  · split at h
    · cases h
    · split at h
      · cases h
      · rename_i hroot hblocked _
        simp only [Except.ok.injEq, Prod.mk.injEq] at h
        obtain ⟨h1, h2⟩ := h
        subst h1
        subst h2
        exact ⟨rfl, hroot, rfl, by simpa using hblocked⟩
  · cases h

theorem resolve_ok_canon {sb : Sandbox} {p canon rel : List String}
    (h : sb.resolve p = .ok (canon, rel)) : canon = sb.root ++ rel := by
  obtain ⟨_, hroot, hrel, _⟩ := resolve_ok_parts h
  subst hrel
  exact (isPrefixOf_append_drop sb.root canon hroot).symm

theorem resolve_ok_escapes {sb : Sandbox} {p canon rel : List String}
    (h : sb.resolve p = .ok (canon, rel)) : escapes sb rel = false := by
  obtain ⟨hcanon, hroot, _, _⟩ := resolve_ok_parts h
  have hplain : plainSegs canon = true := by rw [hcanon]; exact canonAbs_plain _
  have hre : sb.root ++ rel = canon := (resolve_ok_canon h).symm
  unfold escapes
  rw [hre, canonAbs_of_plain canon hplain, hroot]
  rfl

theorem resolve_ok_not_blocked {sb : Sandbox} {p canon rel : List String}
    (h : sb.resolve p = .ok (canon, rel)) :
    ∀ bq ∈ sb.blocked, bq.isPrefixOf (sb.root ++ rel) = false := by
  obtain ⟨_, _, _, hblocked⟩ := resolve_ok_parts h
  rw [← resolve_ok_canon h]
  intro bq hbq
  rw [List.any_eq_false] at hblocked
  exact Bool.not_eq_true _ ▸ by simpa using hblocked bq hbq

theorem globGo_mem {sb : Sandbox} :
    ∀ (cands : List (List String)) (b : OutputBudget)
      (seen : List (List String)) (q : List String),
      q ∈ (globGo sb b seen cands).1 →
      ∃ cand canon, sb.resolve cand = .ok (canon, q) := by
  intro cands
  induction cands with
  | nil => intro b seen q h; simp [globGo] at h
  | cons x rest ih =>
    intro b seen q h
    unfold globGo at h
    cases hres : sb.resolve x with
    | error e => rw [hres] at h; exact ih b seen q h
    | ok pr =>
      obtain ⟨c0, r0⟩ := pr
      rw [hres] at h
      simp only at h
      by_cases hseen : seen.any (fun y => decide (y = c0)) = true
      · rw [if_pos hseen] at h
        exact ih b seen q h
      · rw [if_neg hseen] at h
        cases hch : b.tryCharge (relPathSize r0) with
        | some b' =>
          rw [hch] at h
          simp only [List.mem_cons] at h
          cases h with
          | inl heq => exact ⟨x, c0, by rw [hres, heq]⟩
          | inr hmem => exact ih b' (c0 :: seen) q hmem
        | none => rw [hch] at h; simp at h

theorem glob_mem_ok {sb : Sandbox} {fs : FS} {pats : List String}
    {b : OutputBudget} {q : List String}
    (h : q ∈ (Globber.glob sb fs pats b).paths) :
    ∃ cand canon, sb.resolve cand = .ok (canon, q) :=
  globGo_mem (globCandidates sb fs pats) b [] q h

theorem grepLines_mem_path {rel : List String} {r : Regex} {limit : Nat} :
    ∀ (ls : List String) (c idx : Nat) (m : FileContent),
      m ∈ (grepLines rel r limit c idx ls).1 → m.path = rel := by
  intro ls
  induction ls with
  | nil => intro c idx m h; simp [grepLines] at h
  | cons l rest ih =>
    intro c idx m h
    unfold grepLines at h
    by_cases hm : lineMatches r l = true
    · rw [if_pos hm] at h
      simp only at h
      split at h
      · simp only [List.mem_cons] at h
        cases h with
        | inl heq => rw [heq]
        | inr hmem => exact ih _ _ m hmem
      · simp at h
    · rw [if_neg hm] at h
      exact ih _ _ m h

theorem grepFiles_mem_path {sb : Sandbox} {fs : FS} {r : Regex} {limit : Nat} :
    ∀ (files : List (List String)) (c : Nat) (m : FileContent),
      m ∈ (grepFiles sb fs r limit c files).1 → m.path ∈ files := by
  intro files
  induction files with
  | nil => intro c m h; simp [grepFiles] at h
  | cons rel rest ih =>
    intro c m h
    unfold grepFiles at h
    cases hf : fs.find? (fun f => decide (f.path = sb.root ++ rel)) with
    | none =>
      rw [hf] at h
      exact List.mem_cons_of_mem _ (ih c m h)
    | some f =>
      rw [hf] at h
      simp only at h
      split at h
      · rw [grepLines_mem_path f.lines c 0 m h]
        exact List.mem_cons_self rel rest
      · simp only [List.mem_append] at h
        cases h with
        | inl hl =>
          rw [grepLines_mem_path f.lines c 0 m hl]
          exact List.mem_cons_self rel rest
        | inr hr => exact List.mem_cons_of_mem _ (ih _ m hr)

theorem grep_ok_inv {sb : Sandbox} {fs : FS} {rx : String}
    {pats : List String} {b : OutputBudget} {out : GrepOutput}
    (h : Grepper.grep sb fs rx pats b = .ok out) :
    ∃ r, parseRegex rx = some r ∧
      out.matched = (grepFiles sb fs r b.limit b.consumed
        (Globber.glob sb fs pats ⟨b.limit, 0⟩).paths).1 ∧
      out.truncated = ((grepFiles sb fs r b.limit b.consumed
        (Globber.glob sb fs pats ⟨b.limit, 0⟩).paths).2 ||
        (Globber.glob sb fs pats ⟨b.limit, 0⟩).truncated) := by
  unfold Grepper.grep at h
  cases hrx : parseRegex rx with
  | none => rw [hrx] at h; cases h
  | some r =>
    rw [hrx] at h
    simp only [Except.ok.injEq] at h
    exact ⟨r, rfl, by rw [← h], by rw [← h]⟩

theorem step_tb (tb : ReadonlyFsTools) (fs : FS) (c : Call) :
    (tb.step fs c).2.1 = tb := by
  cases c <;> rfl

theorem step_fs (tb : ReadonlyFsTools) (fs : FS) (c : Call) :
    (tb.step fs c).2.2 = fs := by
  cases c <;> rfl

theorem runSeq_state (tb : ReadonlyFsTools) (fs : FS) :
    ∀ cs : List Call, (runSeq tb fs cs).2 = (tb, fs) := by
  intro cs
  induction cs with
  | nil => rfl
  | cons c rest ih =>
    simp only [runSeq, step_tb, step_fs]
    exact ih

theorem allRead_foldl (fs : FS) :
    ∀ l : List FsEffect, (∀ e ∈ l, e.isRead = true) →
      l.foldl applyEffect fs = fs := by
  intro l
  induction l with
  | nil => intro _; rfl
  | cons e rest ih =>
    intro h
    have he := h e (List.mem_cons_self e rest)
    have : applyEffect fs e = fs := by
      cases e with
      | readFile _ => rfl
      | listTree => rfl
      | writeFile _ _ => simp [FsEffect.isRead] at he
      | deletePath _ => simp [FsEffect.isRead] at he
    rw [List.foldl_cons, this]
    exact ih (fun x hx => h x (List.mem_cons_of_mem e hx))

theorem budgetFit_false_out {α : Type} (limit : Nat) (size : α → Nat) :
    ∀ (xs : List α) (c : Nat), (budgetFit limit size c xs).2 = false →
      (budgetFit limit size c xs).1 = xs := by
  intro xs
  induction xs with
  | nil => intro c _; rfl
  | cons x rest ih =>
    intro c h
    unfold budgetFit at h ⊢
    by_cases hx : c + size x ≤ limit
    · rw [if_pos hx] at h ⊢
      simp only at h ⊢
      rw [ih _ h]
    · rw [if_neg hx] at h
      simp at h

theorem budgetFit_maxFit {α : Type} (limit : Nat) (size : α → Nat) :
    ∀ (xs : List α) (c : Nat), c ≤ limit →
      ((budgetFit limit size c xs).2 = false ∧
        (budgetFit limit size c xs).1 = xs ∧ c + sizeSum size xs ≤ limit) ∨
      ((budgetFit limit size c xs).2 = true ∧ ∃ nxt rest,
        xs = (budgetFit limit size c xs).1 ++ nxt :: rest ∧
        c + sizeSum size (budgetFit limit size c xs).1 ≤ limit ∧
        limit < c + sizeSum size (budgetFit limit size c xs).1 + size nxt) := by
  intro xs
  induction xs with
  | nil =>
    intro c hc
    left
    exact ⟨rfl, rfl, by simpa [sizeSum] using hc⟩
  | cons x rest ih =>
    intro c hc
    by_cases hx : c + size x ≤ limit
    · have hbf : budgetFit limit size c (x :: rest) =
          (x :: (budgetFit limit size (c + size x) rest).1,
           (budgetFit limit size (c + size x) rest).2) := by
        simp only [budgetFit]
        rw [if_pos hx]
      cases ih (c + size x) hx with
      | inl hl =>
        left
        obtain ⟨h1, h2, h3⟩ := hl
        rw [hbf]
        refine ⟨h1, by rw [h2], ?_⟩
        simp only [sizeSum, List.map_cons, List.sum_cons]
        simp only [sizeSum] at h3
        omega
      | inr hr =>
        right
        obtain ⟨h1, nxt, rest', h2, h3, h4⟩ := hr
        rw [hbf]
        refine ⟨h1, nxt, rest', ?_, ?_, ?_⟩
        · simp only [List.cons_append]
          rw [← h2]
        · simp only [sizeSum, List.map_cons, List.sum_cons]
          simp only [sizeSum] at h3
          omega
        · simp only [sizeSum, List.map_cons, List.sum_cons]
          simp only [sizeSum] at h4
          omega
    · right
      have hbf : budgetFit limit size c (x :: rest) = ([], true) := by
        simp only [budgetFit]
        rw [if_neg hx]
      rw [hbf]
      refine ⟨rfl, x, rest, by simp, ?_, ?_⟩
      · simpa [sizeSum] using hc
      · simp only [sizeSum, List.map_nil, List.sum_nil]
        omega

theorem budgetFit_zero_maxFit {α : Type} (limit : Nat) (size : α → Nat)
    (items : List α) :
    MaxFitPrefixSpec limit size items (budgetFit limit size 0 items).1
      (budgetFit limit size 0 items).2 := by
  cases budgetFit_maxFit limit size items 0 (Nat.zero_le limit) with
  | inl hl =>
    left
    obtain ⟨h1, h2, h3⟩ := hl
    exact ⟨h1, h2, by omega⟩
  | inr hr =>
    right
    obtain ⟨h1, nxt, rest, h2, h3, h4⟩ := hr
    exact ⟨h1, nxt, rest, h2, by omega, by omega⟩

theorem budgetFit_append {α : Type} (limit : Nat) (size : α → Nat) :
    ∀ (xs ys : List α) (c : Nat),
      budgetFit limit size c (xs ++ ys) =
        if (budgetFit limit size c xs).2 then budgetFit limit size c xs
        else ((budgetFit limit size c xs).1 ++
                (budgetFit limit size (c + sizeSum size xs) ys).1,
              (budgetFit limit size (c + sizeSum size xs) ys).2) := by
  intro xs
  induction xs with
  | nil =>
    intro ys c
    simp [budgetFit, sizeSum]
  | cons x rest ih =>
    intro ys c
    by_cases hx : c + size x ≤ limit
    · have e1 : budgetFit limit size c ((x :: rest) ++ ys) =
          (x :: (budgetFit limit size (c + size x) (rest ++ ys)).1,
           (budgetFit limit size (c + size x) (rest ++ ys)).2) := by
        simp only [List.cons_append, budgetFit]
        rw [if_pos hx]
        rfl
      have e2 : budgetFit limit size c (x :: rest) =
          (x :: (budgetFit limit size (c + size x) rest).1,
           (budgetFit limit size (c + size x) rest).2) := by
        simp only [budgetFit]
        rw [if_pos hx]
      rw [e1, e2, ih ys (c + size x)]
      by_cases ht : (budgetFit limit size (c + size x) rest).2 = true
      · simp [ht]
      · simp only [Bool.not_eq_true] at ht
        have hs : c + sizeSum size (x :: rest) = c + size x + sizeSum size rest := by
          simp only [sizeSum, List.map_cons, List.sum_cons]
          omega
        simp [ht, hs]
    · have h1 : budgetFit limit size c (x :: rest) = ([], true) := by
        simp only [budgetFit]
        rw [if_neg hx]
      have h2 : budgetFit limit size c (x :: (rest ++ ys)) = ([], true) := by
        simp only [budgetFit]
        rw [if_neg hx]
      simp only [List.cons_append, h2, h1]
      simp

theorem globGo_eq (sb : Sandbox) (limit : Nat) :
    ∀ (cands : List (List String)) (seen : List (List String)) (c : Nat),
      globGo sb ⟨limit, c⟩ seen cands =
        budgetFit limit relPathSize c (globItems sb seen cands) := by
  intro cands
  induction cands with
  | nil => intro seen c; rfl
  | cons q rest ih =>
    intro seen c
    simp only [globGo, globItems]
    cases hres : sb.resolve q with
    | error e =>
      simp only
      exact ih seen c
    | ok pr =>
      obtain ⟨canon, rel⟩ := pr
      simp only
      by_cases hseen : seen.any (fun x => decide (x = canon)) = true
      · rw [if_pos hseen, if_pos hseen]
        exact ih seen c
      · rw [if_neg hseen, if_neg hseen]
        simp only [OutputBudget.tryCharge]
        by_cases hch : c + relPathSize rel ≤ limit
        · rw [if_pos hch]
          have e : budgetFit limit relPathSize c
              (rel :: globItems sb (canon :: seen) rest) =
              (rel :: (budgetFit limit relPathSize (c + relPathSize rel)
                 (globItems sb (canon :: seen) rest)).1,
               (budgetFit limit relPathSize (c + relPathSize rel)
                 (globItems sb (canon :: seen) rest)).2) := by
            simp only [budgetFit]
            rw [if_pos hch]
          rw [e]
          simp only [ih (canon :: seen) (c + relPathSize rel)]
        · rw [if_neg hch]
          have e : budgetFit limit relPathSize c
              (rel :: globItems sb (canon :: seen) rest) = ([], true) := by
            simp only [budgetFit]
            rw [if_neg hch]
          rw [e]

theorem viewGo_eq (limit : Nat) :
    ∀ (ls : List String) (cnt c : Nat),
      viewGo limit c cnt ls =
        (linesJoin (budgetFit limit lineSize c (ls.take cnt)).1,
         (budgetFit limit lineSize c (ls.take cnt)).1.length,
         (budgetFit limit lineSize c (ls.take cnt)).2) := by
  intro ls
  induction ls with
  | nil =>
    intro cnt c
    simp [viewGo, budgetFit, linesJoin]
  | cons l rest ih =>
    intro cnt c
    cases cnt with
    | zero => simp [viewGo, budgetFit, linesJoin]
    | succ k =>
      simp only [viewGo, List.take_succ_cons]
      by_cases hch : c + lineSize l ≤ limit
      · rw [if_pos hch]
        simp only [budgetFit]
        rw [if_pos hch]
        simp only
        rw [ih k (c + lineSize l)]
        simp [linesJoin]
      · rw [if_neg hch]
        simp only [budgetFit]
        rw [if_neg hch]
        simp [linesJoin]

theorem grepLines_eq (rel : List String) (r : Regex) (limit : Nat) :
    ∀ (ls : List String) (c idx : Nat),
      grepLines rel r limit c idx ls =
        ((budgetFit limit grepItemSize c (fileItemsGo r rel idx ls)).1,
         c + sizeSum grepItemSize
           (budgetFit limit grepItemSize c (fileItemsGo r rel idx ls)).1,
         (budgetFit limit grepItemSize c (fileItemsGo r rel idx ls)).2) := by
  intro ls
  induction ls with
  | nil =>
    intro c idx
    simp [grepLines, fileItemsGo, budgetFit, sizeSum]
  | cons l rest ih =>
    intro c idx
    simp only [grepLines, fileItemsGo]
    by_cases hm : lineMatches r l = true
    · rw [if_pos hm, if_pos hm]
      by_cases hch :
          c + grepItemSize ⟨rel, l ++ "\n", ⟨idx, 1⟩⟩ ≤ limit
      · rw [if_pos hch]
        have e : budgetFit limit grepItemSize c
            (⟨rel, l ++ "\n", ⟨idx, 1⟩⟩ :: fileItemsGo r rel (idx + 1) rest) =
            (⟨rel, l ++ "\n", ⟨idx, 1⟩⟩ ::
              (budgetFit limit grepItemSize
                (c + grepItemSize ⟨rel, l ++ "\n", ⟨idx, 1⟩⟩)
                (fileItemsGo r rel (idx + 1) rest)).1,
             (budgetFit limit grepItemSize
                (c + grepItemSize ⟨rel, l ++ "\n", ⟨idx, 1⟩⟩)
                (fileItemsGo r rel (idx + 1) rest)).2) := by
          simp only [budgetFit]
          rw [if_pos hch]
        rw [e]
        simp only [ih (c + grepItemSize ⟨rel, l ++ "\n", ⟨idx, 1⟩⟩) (idx + 1)]
        simp only [sizeSum, List.map_cons, List.sum_cons, Prod.mk.injEq]
        refine ⟨trivial, by omega, trivial⟩
      · rw [if_neg hch]
        have e : budgetFit limit grepItemSize c
            (⟨rel, l ++ "\n", ⟨idx, 1⟩⟩ :: fileItemsGo r rel (idx + 1) rest) =
            ([], true) := by
          simp only [budgetFit]
          rw [if_neg hch]
        rw [e]
        simp [sizeSum]
    · rw [if_neg hm, if_neg hm]
      exact ih c (idx + 1)

theorem grepItems_cons (sb : Sandbox) (fs : FS) (r : Regex)
    (rel : List String) (rest : List (List String)) :
    grepItems sb fs r (rel :: rest) =
      (match fs.find? (fun f => decide (f.path = sb.root ++ rel)) with
       | none => []
       | some f => fileItemsGo r rel 0 f.lines) ++ grepItems sb fs r rest := by
  simp [grepItems]

theorem grepFiles_eq (sb : Sandbox) (fs : FS) (r : Regex) (limit : Nat) :
    ∀ (files : List (List String)) (c : Nat),
      grepFiles sb fs r limit c files =
        ((budgetFit limit grepItemSize c (grepItems sb fs r files)).1,
         (budgetFit limit grepItemSize c (grepItems sb fs r files)).2) := by
  intro files
  induction files with
  | nil =>
    intro c
    simp [grepFiles, grepItems, budgetFit]
  | cons rel rest ih =>
    intro c
    rw [grepItems_cons]
    simp only [grepFiles]
    cases hf : fs.find? (fun f => decide (f.path = sb.root ++ rel)) with
    | none =>
      simp only [List.nil_append]
      exact ih c
    | some f =>
      simp only
      rw [grepLines_eq]
      simp only
      rw [budgetFit_append]
      by_cases ht :
          (budgetFit limit grepItemSize c (fileItemsGo r rel 0 f.lines)).2 = true
      · rw [if_pos ht, if_pos ht, ← ht]
      · simp only [Bool.not_eq_true] at ht
        rw [if_neg (by simp [ht]), if_neg (by simp [ht])]
        rw [budgetFit_false_out limit grepItemSize _ c ht]
        rw [ih (c + sizeSum grepItemSize (fileItemsGo r rel 0 f.lines))]

/-- C1: for every relative path containing `..` segments that would resolve
outside the sandbox root, Sandbox.resolve fails with PathEscape, view on it
fails with PathEscape (so returns no content), and no path listed by glob or
carried by a grep match escapes the root. -/
theorem c1_path_escape_containment
    (sb : Sandbox) (fs : FS) (p : List String) (w : FileWindow)
    (b : OutputBudget) (pats : List String) (rx : String)
    (hdots : ".." ∈ p) (hesc : escapes sb p = true) :
    sb.resolve p = .error .PathEscape ∧
    Viewer.view sb fs p w b = .error .PathEscape ∧
    (∀ q ∈ (Globber.glob sb fs pats b).paths, escapes sb q = false) ∧
    (∀ out, Grepper.grep sb fs rx pats b = .ok out →
      ∀ m ∈ out.matched, escapes sb m.path = false) := by
  have hpref : sb.root.isPrefixOf (canonAbs (sb.root ++ p)) = false := by
    simpa [escapes] using hesc
  have hres : sb.resolve p = .error .PathEscape := by
    simp only [Sandbox.resolve]
    rw [if_neg (by simp [hpref])]
  refine ⟨hres, ?_, ?_, ?_⟩
  · simp [Viewer.view, hres]
  · intro q hq
    obtain ⟨cand, canon, hok⟩ := glob_mem_ok hq
    exact resolve_ok_escapes hok
  · intro out hout m hm
    obtain ⟨r, hrx, hmatched, _⟩ := grep_ok_inv hout
    rw [hmatched] at hm
    have hp := grepFiles_mem_path _ _ m hm
    obtain ⟨cand, canon, hok⟩ := glob_mem_ok hp
    exact resolve_ok_escapes hok

theorem c1_path_escape_containment_witness :
    Sandbox.resolve ⟨["r"], [], false⟩ ["..", "x"] = .error .PathEscape ∧
    Viewer.view ⟨["r"], [], false⟩ [⟨["r", "a.txt"], ["hi"]⟩] ["..", "x"]
      ⟨0, 5⟩ ⟨100, 0⟩ = .error .PathEscape := by
  have h := c1_path_escape_containment ⟨["r"], [], false⟩
    [⟨["r", "a.txt"], ["hi"]⟩] ["..", "x"] ⟨0, 5⟩ ⟨100, 0⟩ ["*"] "hi"
    (by decide) (by decide)
  exact ⟨h.1, h.2.1⟩

/-- C2: no call (nor the construction, which takes no filesystem at all)
changes the filesystem: every effect of a call is a read, folding the
effects over the state is the identity, and the state threaded through any
call or call sequence is returned unchanged. -/
theorem c2_read_only_frame (tb : ReadonlyFsTools) (fs : FS) (c : Call)
    (cs : List Call) :
    (∀ e ∈ callEffects tb fs c, e.isRead = true) ∧
    (callEffects tb fs c).foldl applyEffect fs = fs ∧
    (tb.step fs c).2.2 = fs ∧ (runSeq tb fs cs).2.2 = fs := by
  have hread : ∀ e ∈ callEffects tb fs c, e.isRead = true := by
    cases c with
    | glob pats =>
      intro e he
      simp only [callEffects, List.mem_singleton] at he
      rw [he]
      rfl
    | grep rx pats =>
      intro e he
      simp only [callEffects] at he
      cases hrx : parseRegex rx with
      | none => rw [hrx] at he; simp at he
      | some r =>
        rw [hrx] at he
        simp only [List.mem_cons, List.mem_map] at he
        cases he with
        | inl h1 => rw [h1]; rfl
        | inr h2 =>
          obtain ⟨a, _, h3⟩ := h2
          rw [← h3]
          rfl
    | view p off cnt =>
      intro e he
      simp only [callEffects] at he
      cases hres : tb.sandbox.resolve p with
      | ok pr =>
        rw [hres] at he
        simp only [List.mem_singleton] at he
        rw [he]
        rfl
      | error err => rw [hres] at he; simp at he
  refine ⟨hread, allRead_foldl fs _ hread, step_fs tb fs c, ?_⟩
  rw [runSeq_state tb fs cs]

/-- C3: a blocked entry is never served: view on a path resolving into a
blocked entry fails with BlockedPath, and no path listed by glob or carried
by a grep match lies at or below a blocked entry. -/
theorem c3_blocked_files_excluded
    (sb : Sandbox) (fs : FS) (bp p : List String) (w : FileWindow)
    (b : OutputBudget) (pats : List String) (rx : String)
    (hb : bp ∈ sb.blocked)
    (hin : sb.root.isPrefixOf (canonAbs (sb.root ++ p)) = true)
    (hpre : bp.isPrefixOf (canonAbs (sb.root ++ p)) = true) :
    Viewer.view sb fs p w b = .error .BlockedPath ∧
    (∀ q ∈ (Globber.glob sb fs pats b).paths,
      ∀ bq ∈ sb.blocked, bq.isPrefixOf (sb.root ++ q) = false) ∧
    (∀ out, Grepper.grep sb fs rx pats b = .ok out →
      ∀ m ∈ out.matched,
        ∀ bq ∈ sb.blocked, bq.isPrefixOf (sb.root ++ m.path) = false) := by
  have hany : sb.blocked.any
      (fun bq => bq.isPrefixOf (canonAbs (sb.root ++ p))) = true :=
    List.any_eq_true.mpr ⟨bp, hb, hpre⟩
  have hres : sb.resolve p = .error .BlockedPath := by
    simp only [Sandbox.resolve]
    rw [if_pos hin, if_pos hany]
  refine ⟨by simp [Viewer.view, hres], ?_, ?_⟩
  · intro q hq
    obtain ⟨cand, canon, hok⟩ := glob_mem_ok hq
    exact resolve_ok_not_blocked hok
  · intro out hout m hm
    obtain ⟨r, hrx, hmatched, _⟩ := grep_ok_inv hout
    rw [hmatched] at hm
    have hp := grepFiles_mem_path _ _ m hm
    obtain ⟨cand, canon, hok⟩ := glob_mem_ok hp
    exact resolve_ok_not_blocked hok

theorem c3_blocked_files_excluded_witness :
    Viewer.view ⟨["r"], [["r", "secret"]], false⟩
      [⟨["r", "secret"], ["key"]⟩] ["secret"] ⟨0, 5⟩ ⟨100, 0⟩ =
      .error .BlockedPath := by
  have h := c3_blocked_files_excluded ⟨["r"], [["r", "secret"]], false⟩
    [⟨["r", "secret"], ["key"]⟩] ["r", "secret"] ["secret"] ⟨0, 5⟩ ⟨100, 0⟩
    ["*"] "key" (by decide) (by decide) (by decide)
  exact h.1

/-- C5: a syntactically invalid regular expression makes grep fail with
InvalidPattern before any scanning, and no result is ever produced for it. -/
theorem c5_invalid_regex_atomic
    (sb : Sandbox) (fs : FS) (rx : String) (pats : List String)
    (b : OutputBudget) (h : parseRegex rx = none) :
    Grepper.grep sb fs rx pats b = .error .InvalidPattern ∧
    ∀ out, Grepper.grep sb fs rx pats b ≠ .ok out := by
  have h1 : Grepper.grep sb fs rx pats b = .error .InvalidPattern := by
    simp [Grepper.grep, h]
  exact ⟨h1, fun out hout => by rw [h1] at hout; cases hout⟩

theorem c5_invalid_regex_atomic_witness :
    Grepper.grep ⟨["r"], [], false⟩ [⟨["r", "a.txt"], ["hi"]⟩] "("
      ["*"] ⟨100, 0⟩ = .error .InvalidPattern := by
  have h := c5_invalid_regex_atomic ⟨["r"], [], false⟩
    [⟨["r", "a.txt"], ["hi"]⟩] "(" ["*"] ⟨100, 0⟩ (by decide)
  exact h.1

/-- C6: view succeeds with empty contents, a delivered window of zero lines
and no truncation whenever the target file is empty or the offset is at or
beyond its end. -/
theorem c6_view_out_of_range_success
    (sb : Sandbox) (fs : FS) (p : List String) (off cnt : Nat)
    (b : OutputBudget) (canon rel : List String) (f : File)
    (hr : sb.resolve p = .ok (canon, rel))
    (hf : fs.find? (fun fl => decide (fl.path = canon)) = some f)
    (hend : f.lines.length ≤ off) :
    Viewer.view sb fs p ⟨off, cnt⟩ b = .ok ⟨⟨rel, "", ⟨off, 0⟩⟩, false⟩ := by
  have hdrop : f.lines.drop off = [] := List.drop_eq_nil_of_le hend
  simp [Viewer.view, hr, hf, hdrop, viewGo]

theorem c6_view_out_of_range_success_witness :
    Viewer.view ⟨["r"], [], false⟩ [⟨["r", "empty.txt"], []⟩]
      ["empty.txt"] ⟨0, 10⟩ ⟨10000, 0⟩ =
      .ok ⟨⟨["empty.txt"], "", ⟨0, 0⟩⟩, false⟩ := by
  exact c6_view_out_of_range_success ⟨["r"], [], false⟩
    [⟨["r", "empty.txt"], []⟩] ["empty.txt"] 0 10 ⟨10000, 0⟩
    ["r", "empty.txt"] ["empty.txt"] ⟨["r", "empty.txt"], []⟩
    (by decide) (by decide) (by decide)

/-- C7: every toolbox method builds its own fresh OutputBudget with the
construction-time limit and zero consumption, and the result of a call after
any prefix of calls equals the result of that call made first. -/
theorem c7_fresh_budget_independence
    (tb : ReadonlyFsTools) (fs : FS) (pre : List Call) (c : Call)
    (pats : List String) (rx : String) (p : List String) (off cnt : Nat) :
    tb.glob fs pats = Globber.glob tb.sandbox fs pats ⟨tb.output_limit, 0⟩ ∧
    tb.grep fs rx pats =
      Grepper.grep tb.sandbox fs rx pats ⟨tb.output_limit, 0⟩ ∧
    tb.view fs p off cnt =
      Viewer.view tb.sandbox fs p ⟨off, cnt⟩ ⟨tb.output_limit, 0⟩ ∧
    (runSeq tb fs (pre ++ [c])).1 = (runSeq tb fs pre).1 ++ [(tb.step fs c).1] := by
  refine ⟨rfl, rfl, rfl, ?_⟩
  induction pre with
  | nil => rfl
  | cons x rest ih =>
    simp only [List.cons_append, runSeq, step_tb, step_fs, List.append_eq]
    rw [ih]

/-- C8: glob is idempotent and deterministic — two identical calls against
the unchanged tree return identical results, in the same order. -/
theorem c8_glob_idempotent (tb : ReadonlyFsTools) (fs : FS)
    (pats : List String) :
    (runSeq tb fs [Call.glob pats, Call.glob pats]).1 =
      [CallResult.globR (tb.glob fs pats),
       CallResult.globR (tb.glob fs pats)] := rfl

/-- C9: construction with no arguments uses the defaults of the __init__
signature: the sandbox root is the (canonical) current working directory,
no blocked files, hidden entries denied, and an output limit of 10000. -/
theorem c9_default_configuration (cwd : List String)
    (h : plainSegs cwd = true) :
    (ReadonlyFsTools.ofDefaults cwd).sandbox.root = cwd ∧
    (ReadonlyFsTools.ofDefaults cwd).sandbox.blocked = [] ∧
    (ReadonlyFsTools.ofDefaults cwd).sandbox.allow_hidden = false ∧
    (ReadonlyFsTools.ofDefaults cwd).output_limit = 10000 := by
  refine ⟨?_, rfl, rfl, rfl⟩
  exact canonAbs_of_plain cwd h

theorem c9_default_configuration_witness :
    (ReadonlyFsTools.ofDefaults ["home", "user"]).sandbox.root =
      ["home", "user"] ∧
    (ReadonlyFsTools.ofDefaults ["home", "user"]).output_limit = 10000 := by
  have h := c9_default_configuration ["home", "user"] (by decide)
  exact ⟨h.1, h.2.2.2⟩

/-- C10: the module-level view function of src/llm_tools_readonly_fs.py is a
pure function of its string input — it returns the greeting prefix followed
by the input, touches no filesystem and performs no sandbox validation —
and register_tools registers exactly it. -/
theorem c10_stub_view_hello :
    (∀ s : String, LlmToolsReadonlyFsModule.view s = "hello " ++ s) ∧
    LlmToolsReadonlyFsModule.register_tools = [LlmToolsReadonlyFsModule.view] :=
  ⟨fun _ => rfl, rfl⟩

/-- C4: every producer commits output in whole items only: the glob paths,
the grep matches (for grep, over the candidate files its inner glob
returned, whose truncation feeds the final flag), and the view lines are
each exactly the maximal prefix of their candidate items that fits the
budget limit, and the truncation flag is false exactly when every candidate
item fitted. -/
theorem c4_budget_whole_items
    (sb : Sandbox) (fs : FS) (pats : List String) (rx : String)
    (p : List String) (off cnt limit : Nat) (r : Regex)
    (gout : GrepOutput) (vout : ViewOutput)
    (canon rel : List String) (f : File)
    (hrx : parseRegex rx = some r)
    (hg : Grepper.grep sb fs rx pats ⟨limit, 0⟩ = .ok gout)
    (hr : sb.resolve p = .ok (canon, rel))
    (hf : fs.find? (fun fl => decide (fl.path = canon)) = some f)
    (hv : Viewer.view sb fs p ⟨off, cnt⟩ ⟨limit, 0⟩ = .ok vout) :
    MaxFitPrefixSpec limit relPathSize
      (globItems sb [] (globCandidates sb fs pats))
      (Globber.glob sb fs pats ⟨limit, 0⟩).paths
      (Globber.glob sb fs pats ⟨limit, 0⟩).truncated ∧
    (∃ t, MaxFitPrefixSpec limit grepItemSize
        (grepItems sb fs r (Globber.glob sb fs pats ⟨limit, 0⟩).paths)
        gout.matched t ∧
      gout.truncated = (t || (Globber.glob sb fs pats ⟨limit, 0⟩).truncated)) ∧
    (∃ ls, MaxFitPrefixSpec limit lineSize ((f.lines.drop off).take cnt)
        ls vout.truncated ∧
      vout.view.contents = linesJoin ls ∧
      vout.view.window.line_count = ls.length) := by
  have hpaths : (Globber.glob sb fs pats ⟨limit, 0⟩).paths =
      (budgetFit limit relPathSize 0
        (globItems sb [] (globCandidates sb fs pats))).1 := by
    simp only [Globber.glob]
    rw [globGo_eq]
  have htrunc : (Globber.glob sb fs pats ⟨limit, 0⟩).truncated =
      (budgetFit limit relPathSize 0
        (globItems sb [] (globCandidates sb fs pats))).2 := by
    simp only [Globber.glob]
    rw [globGo_eq]
  refine ⟨?_, ?_, ?_⟩
  · rw [hpaths, htrunc]
    exact budgetFit_zero_maxFit limit relPathSize _
  · obtain ⟨r', hrx', hmatched, htr⟩ := grep_ok_inv hg
    rw [hrx] at hrx'
    injection hrx' with hre
    subst hre
    simp only at hmatched htr
    rw [grepFiles_eq] at hmatched htr
    refine ⟨(budgetFit limit grepItemSize 0
      (grepItems sb fs r (Globber.glob sb fs pats ⟨limit, 0⟩).paths)).2,
      ?_, ?_⟩
    · rw [hmatched]
      exact budgetFit_zero_maxFit limit grepItemSize _
    · rw [htr]
  · have hv2 : Viewer.view sb fs p ⟨off, cnt⟩ ⟨limit, 0⟩ =
        .ok ⟨⟨rel, (viewGo limit 0 cnt (f.lines.drop off)).1,
              ⟨off, (viewGo limit 0 cnt (f.lines.drop off)).2.1⟩⟩,
             (viewGo limit 0 cnt (f.lines.drop off)).2.2⟩ := by
      simp only [Viewer.view, hr, hf]
    rw [hv2] at hv
    injection hv with hv'
    subst hv'
    rw [viewGo_eq]
    refine ⟨(budgetFit limit lineSize 0 ((f.lines.drop off).take cnt)).1,
      budgetFit_zero_maxFit limit lineSize _, rfl, rfl⟩

theorem c4_budget_whole_items_witness :
    MaxFitPrefixSpec 1000 relPathSize
      (globItems ⟨["r"], [], false⟩ []
        (globCandidates ⟨["r"], [], false⟩ [⟨["r", "a.txt"], ["TODO x"]⟩]
          ["*.txt"]))
      (Globber.glob ⟨["r"], [], false⟩ [⟨["r", "a.txt"], ["TODO x"]⟩]
        ["*.txt"] ⟨1000, 0⟩).paths
      (Globber.glob ⟨["r"], [], false⟩ [⟨["r", "a.txt"], ["TODO x"]⟩]
        ["*.txt"] ⟨1000, 0⟩).truncated ∧
    (∃ t, MaxFitPrefixSpec 1000 grepItemSize
        (grepItems ⟨["r"], [], false⟩ [⟨["r", "a.txt"], ["TODO x"]⟩]
          (.cat (.cat (.cat (.chr 'T') (.chr 'O')) (.chr 'D')) (.chr 'O'))
          (Globber.glob ⟨["r"], [], false⟩ [⟨["r", "a.txt"], ["TODO x"]⟩]
            ["*.txt"] ⟨1000, 0⟩).paths)
        (⟨[⟨["a.txt"], "TODO x\n", ⟨0, 1⟩⟩], false⟩ : GrepOutput).matched t ∧
      (⟨[⟨["a.txt"], "TODO x\n", ⟨0, 1⟩⟩], false⟩ : GrepOutput).truncated =
        (t || (Globber.glob ⟨["r"], [], false⟩
          [⟨["r", "a.txt"], ["TODO x"]⟩] ["*.txt"] ⟨1000, 0⟩).truncated)) ∧
    (∃ ls, MaxFitPrefixSpec 1000 lineSize
        ((((⟨["r", "a.txt"], ["TODO x"]⟩ : File)).lines.drop 0).take 5) ls
        (⟨⟨["a.txt"], "TODO x\n", ⟨0, 1⟩⟩, false⟩ : ViewOutput).truncated ∧
      (⟨⟨["a.txt"], "TODO x\n", ⟨0, 1⟩⟩, false⟩ : ViewOutput).view.contents =
        linesJoin ls ∧
      (⟨⟨["a.txt"], "TODO x\n", ⟨0, 1⟩⟩, false⟩ :
        ViewOutput).view.window.line_count = ls.length) := by
  exact c4_budget_whole_items ⟨["r"], [], false⟩
    [⟨["r", "a.txt"], ["TODO x"]⟩] ["*.txt"] "TODO" ["a.txt"] 0 5 1000
    (.cat (.cat (.cat (.chr 'T') (.chr 'O')) (.chr 'D')) (.chr 'O'))
    ⟨[⟨["a.txt"], "TODO x\n", ⟨0, 1⟩⟩], false⟩
    ⟨⟨["a.txt"], "TODO x\n", ⟨0, 1⟩⟩, false⟩
    ["r", "a.txt"] ["a.txt"] ⟨["r", "a.txt"], ["TODO x"]⟩
    (by decide) (by decide) (by decide) (by decide) (by decide)
